import Mathlib

/-!
Verification of the chunking and vector-store core of the
`aisdk-rag-postgresql-starter` repository.

JavaScript strings are modelled as `List Char`; JavaScript numbers that the
relevant code paths only ever use as non-negative integers (lengths, ids,
limits, chunk indices) are modelled as `Nat`; similarity scores are `ℚ`.

* `src/lib/chunking.ts` is embedded by `chunkContent`, `getOverlapText`
  and `chunkContentByTokens` below.
* `src/lib/vector-store.ts` is embedded by `storeDocument`, `vectorSearch`,
  `getDocumentById`, `getAllDocuments`, `deleteDocument` and
  `fullTextSearch` below.  The PostgreSQL database is modelled as explicit
  state (`DB`): lists of document and chunk rows plus the two serial
  counters; the `ON DELETE CASCADE` foreign key of `document_chunks`
  (database/schema in the repository) is modelled by deleting the chunk
  rows of a document whenever the document row is deleted.
* The OpenAI embedding call (`embed` from the `ai` package) is an external
  collaborator; it is modelled as an oracle `Str → Except Str Vec` so that
  both succeeding and failing embedding services can be quantified over.
-/

/-- JavaScript strings, modelled as lists of characters. -/
abbrev Str := List Char

/-- Whitespace test used both by JavaScript `trim()` and by the `\s`
character class of the sentence-splitting regular expressions (common
ASCII whitespace). -/
def isWS (c : Char) : Bool := c.isWhitespace

/-- JavaScript `String.prototype.trim`: remove whitespace from both ends. -/
def trimStr (s : Str) : Str :=
  ((s.dropWhile isWS).reverse.dropWhile isWS).reverse

/-- Is `c` one of the sentence-ending characters `.`, `!`, `?` of the
regular expressions in `src/lib/chunking.ts`. -/
def isSentEnd (c : Char) : Bool := c = '.' || c = '!' || c = '?'

/-- Does the list start with a whitespace character. -/
def headWS : Str → Bool
  | [] => false
  | c :: _ => isWS c

/-- Helper for `splitBySentences`: scan the text, accumulating the current
piece (reversed) in `acc`; a maximal whitespace run immediately preceded by
`.`, `!` or `?` is a separator, exactly as the lookbehind split
`text.split(/(?<=[.!?])\s+/)` behaves in JavaScript (a separator at the end
of the text leaves a final empty piece). -/
def splitSentencesAux : Nat → Str → Str → List Str
  | _, [], acc => [acc.reverse]
  | 0, l, acc => [acc.reverse ++ l]
  | fuel + 1, c :: rest, acc =>
    if isSentEnd c && headWS rest then
      (acc.reverse ++ [c]) :: splitSentencesAux fuel (rest.dropWhile isWS) []
    else
      splitSentencesAux fuel rest (c :: acc)

/-- The split `text.split(/(?<=[.!?])\s+/)` from `src/lib/chunking.ts`.
The fuel argument makes the recursion structural (each step consumes at
least one character, so `text.length` steps always suffice and the
fuel-exhaustion branch is unreachable). -/
def splitBySentences (text : Str) : List Str :=
  splitSentencesAux text.length text []

/-- The joining expression of `getOverlapText`:
`sentence + (overlap ? ' ' + overlap : '')`. -/
def ovJoin (s ov : Str) : Str := s ++ (if ov = [] then [] else ' ' :: ov)

/-- Loop of `getOverlapText` (`src/lib/chunking.ts` lines 96–105): walk
backwards over `rev` (the reversed sentence list), prepending each sentence
whose length still fits the running length budget, and stop at the first
sentence that does not fit.  `ov` and `curLen` are the JavaScript `overlap`
and `currentLength` variables; the separator space added when joining is
counted in `currentLength` only after the acceptance test, exactly as in
the source (`currentLength += sentence.length + (overlap !== sentence ? 1 : 0)`). -/
def overlapLoop (budget : Nat) : List Str → Str → Nat → Str
  | [], ov, _ => ov
  | s :: rest, ov, curLen =>
    if curLen + s.length ≤ budget then
      overlapLoop budget rest (ovJoin s ov)
        (curLen + s.length + (if ovJoin s ov ≠ s then 1 else 0))
    else ov

/-- `getOverlapText` from `src/lib/chunking.ts`: extract trailing whole
sentences of `text` to be carried into the next chunk.  A non-positive
`overlapLength` (guard `overlapLength <= 0` in the source) is the `0` case
of the `Nat`-valued budget. -/
def getOverlapText (text : Str) (overlapLength : Nat) : Str :=
  if text = [] || overlapLength = 0 then []
  else overlapLoop overlapLength (splitBySentences text).reverse [] 0

/-- The options object of `chunkContent`; the source defaults are
`maxLength = 1000`, `overlap = 100`, `minChunkLength = 100`. -/
structure ChunkOptions where
  maxLength : Nat
  overlap : Nat
  minChunkLength : Nat
deriving Repr, DecidableEq

/-- The sentence-accumulation loop of `chunkContent`
(`src/lib/chunking.ts` lines 38–68).  State: `chunks` is the output so
far, `cur`/`curLen` are the JavaScript `currentChunk`/`currentLength`.
Returns the output list and the final running chunk. -/
def chunkLoop (o : ChunkOptions) : List Str → List Str → Str → Nat → List Str × Str
  | [], chunks, cur, _ => (chunks, cur)
  | s0 :: rest, chunks, cur, curLen =>
    let sentence := trimStr s0
    let sLen := sentence.length
    if o.maxLength < curLen + sLen && cur.length > 0 then
      let chunks' :=
        if o.minChunkLength ≤ (trimStr cur).length then chunks ++ [trimStr cur] else chunks
      if 0 < o.overlap && chunks'.length > 0 then
        let ovText := getOverlapText cur o.overlap
        let cur' := ovText ++ (if ovText ≠ [] then [' '] else []) ++ sentence
        chunkLoop o rest chunks' cur' cur'.length
      else
        chunkLoop o rest chunks' sentence sLen
    else
      if cur ≠ [] then
        chunkLoop o rest chunks (cur ++ ' ' :: sentence) (curLen + 1 + sLen)
      else
        chunkLoop o rest chunks sentence sLen

/-- The sentence units `chunkContent` iterates over: the split result with
whitespace-only units discarded
(`.filter(sentence => sentence.trim().length > 0)`). -/
def sentencesOf (text : Str) : List Str :=
  (splitBySentences text).filter (fun s => (trimStr s).length > 0)

/-- `chunkContent` from `src/lib/chunking.ts`: split `text` into
sentence-bounded chunks with overlap. -/
def chunkContent (text : Str) (o : ChunkOptions) : List Str :=
  if (trimStr text).length = 0 then []
  else if sentencesOf text = [] then
    if o.maxLength < text.length then [text.take o.maxLength] else [text]
  else
    let res := chunkLoop o (sentencesOf text) [] [] 0
    let chunks :=
      if o.minChunkLength ≤ (trimStr res.2).length then res.1 ++ [trimStr res.2] else res.1
    if chunks = [] && (trimStr text).length > 0 then
      [(trimStr text).take o.maxLength]
    else chunks

/-- `chunkContentByTokens` from `src/lib/chunking.ts`: token-budgeted
wrapper around `chunkContent` using the fixed 4-characters-per-token
approximation (source defaults: `maxTokens = 250`, `overlapTokens = 25`). -/
def chunkContentByTokens (text : Str) (maxTokens : Nat) (overlapTokens : Nat) : List Str :=
  chunkContent text { maxLength := maxTokens * 4, overlap := overlapTokens * 4,
                      minChunkLength := 50 }

/-! ## Vector store (`src/lib/vector-store.ts`) -/

/-- Embedding vectors.  The numeric contents of an embedding are produced
by the external OpenAI model and never inspected by the repository's code,
so rational components suffice for the model. -/
abbrev Vec := List ℚ

/-- A row of the `documents` table (`database/schema.sql`). -/
structure DocRow where
  id : Nat
  url : Option Str
  title : Str
  content : Str
  file_name : Option Str
  file_type : Option Str
  file_size : Option Nat
  source_type : Str
deriving Repr, DecidableEq

/-- A row of the `document_chunks` table (`database/schema.sql`). -/
structure ChunkRow where
  id : Nat
  document_id : Nat
  content : Str
  embedding : Vec
  chunk_index : Nat
deriving Repr, DecidableEq

/-- The database state: both tables (rows in insertion order) and the two
`BIGSERIAL` counters (PostgreSQL serials start at 1). -/
structure DB where
  documents : List DocRow
  chunks : List ChunkRow
  nextDocId : Nat
  nextChunkId : Nat
deriving Repr, DecidableEq

/-- An empty database as created by `database/schema.sql`. -/
def emptyDB : DB := { documents := [], chunks := [], nextDocId := 1, nextChunkId := 1 }

/-- Well-formedness of a database state: serial counters dominate every id
already handed out (`BIGSERIAL` behaviour), and chunk rows reference
already-created documents.  `emptyDB` satisfies it and `storeDocument`
preserves it. -/
def wfDB (db : DB) : Prop :=
  1 ≤ db.nextDocId ∧
  (∀ d ∈ db.documents, 1 ≤ d.id ∧ d.id < db.nextDocId) ∧
  (∀ c ∈ db.chunks, c.document_id < db.nextDocId)

instance (db : DB) : Decidable (wfDB db) := by
  unfold wfDB; infer_instance

/-- The input object of `storeDocument`.  `chunks = none` models an input
object without a `chunks` field (the legacy format the source rejects);
`chunks = some []` models a present but empty array (truthy in
JavaScript). -/
structure StoreInput where
  title : Str
  content : Str
  chunks : Option (List Str)
  url : Option Str
  file_name : Option Str
  file_type : Option Str
  file_size : Option Nat
  source_type : Option Str
deriving Repr, DecidableEq

/-- The `StoredDocument` result of `storeDocument` (the source returns
`document.url || null` and `document.title || null`, so empty strings
come back as `null`). -/
structure StoredDocument where
  id : Nat
  url : Option Str
  title : Option Str
  chunksCreated : Nat
deriving Repr, DecidableEq

/-- The JavaScript truthiness normalisation applied to `content.url`:
the dedup branch runs only when `content.url` is truthy, and the INSERT
stores `content.url || null`, so an absent or empty url is `none`. -/
def normUrl : Option Str → Option Str
  | none => none
  | some u => if u = [] then none else some u

/-- `x || null` on an optional string: an empty string becomes `null`. -/
def orNull : Str → Option Str
  | [] => none
  | s => some s

/-- `DELETE FROM documents WHERE url = u`, with the `ON DELETE CASCADE`
of `document_chunks.document_id` removing the chunks of every deleted
document. -/
def deleteDocsByUrl (db : DB) (u : Str) : DB :=
  let deletedIds := (db.documents.filter (fun d => d.url == some u)).map (·.id)
  { db with
    documents := db.documents.filter (fun d => !(d.url == some u)),
    chunks := db.chunks.filter (fun c => !(deletedIds.contains c.document_id)) }

/-- `DELETE FROM documents WHERE id = i` with the same cascade. -/
def deleteDocById (db : DB) (i : Nat) : DB :=
  { db with
    documents := db.documents.filter (fun d => !(d.id == i)),
    chunks := db.chunks.filter (fun c => !(c.document_id == i)) }

/-- The dedup-by-url step of `storeDocument` (lines 55–67): if a truthy
url is supplied and a document with that url exists, delete it (the
existence check followed by `DELETE ... WHERE url = ...` deletes every
row with that url). -/
def dedupByUrl (input : StoreInput) (db : DB) : DB :=
  match normUrl input.url with
  | some u => if (db.documents.filter (fun d => d.url == some u)) ≠ [] then
                deleteDocsByUrl db u
              else db
  | none => db

/-- `source_type` selection of `storeDocument` (lines 72–75):
an explicit `source_type` wins, else `'file'` when a `file_name` field is
present, else `'url'` for a truthy url, else `'text'`. -/
def sourceTypeOf (input : StoreInput) : Str :=
  match input.source_type with
  | some s => s
  | none =>
    match input.file_name with
    | some _ => 'f' :: 'i' :: 'l' :: 'e' :: []
    | none =>
      match normUrl input.url with
      | some _ => 'u' :: 'r' :: 'l' :: []
      | none => 't' :: 'e' :: 'x' :: 't' :: []

/-- The per-chunk loop of `storeDocument` (lines 117–154).  `embedC`
models the external embedding call; `persistC i` models whether the
`INSERT` of the chunk at index `i` succeeds (both failure kinds are
caught by the per-chunk `try/catch`, which logs and continues).  Returns
the updated database and the number of chunks created. -/
def chunkInsertLoop (embedC : Str → Except Str Vec) (persistC : Nat → Bool)
    (docId : Nat) : List Str → Nat → DB → Nat → DB × Nat
  | [], _, db, created => (db, created)
  | ch :: rest, i, db, created =>
    if trimStr ch = [] then
      chunkInsertLoop embedC persistC docId rest (i + 1) db created
    else
      match embedC ch with
      | .error _ => chunkInsertLoop embedC persistC docId rest (i + 1) db created
      | .ok emb =>
        if persistC i then
          let row : ChunkRow :=
            { id := db.nextChunkId, document_id := docId, content := ch,
              embedding := emb, chunk_index := i }
          chunkInsertLoop embedC persistC docId rest (i + 1)
            { db with chunks := db.chunks ++ [row], nextChunkId := db.nextChunkId + 1 }
            (created + 1)
        else
          chunkInsertLoop embedC persistC docId rest (i + 1) db created

/-- Error message produced by the outer catch of `storeDocument`. -/
def storeFailMsg (inner : Str) : Str :=
  ("Failed to store document: ".toList) ++ inner

/-- The document row the `INSERT INTO documents ... RETURNING id` of
`storeDocument` creates: its id is the next serial value after the
dedup-by-url step. -/
def insertedDoc (input : StoreInput) (db : DB) : DocRow :=
  { id := (dedupByUrl input db).nextDocId, url := normUrl input.url, title := input.title,
    content := input.content, file_name := input.file_name, file_type := input.file_type,
    file_size := input.file_size, source_type := sourceTypeOf input }

/-- The database state after the dedup-by-url step and the document
`INSERT` of `storeDocument`. -/
def dbAfterInsert (input : StoreInput) (db : DB) : DB :=
  { dedupByUrl input db with
    documents := (dedupByUrl input db).documents ++ [insertedDoc input db],
    nextDocId := (dedupByUrl input db).nextDocId + 1 }

/-- `storeDocument` from `src/lib/vector-store.ts`: dedup by url, insert
the document row, embed and persist each chunk (skipping empty chunks and
surviving per-chunk failures), and delete the document again if no chunk
could be created.  Returns the result (or the thrown error, as re-wrapped
by the outer catch) together with the final database state. -/
def storeDocument (embedC : Str → Except Str Vec) (persistC : Nat → Bool)
    (input : StoreInput) (db : DB) : Except Str StoredDocument × DB :=
  match input.chunks with
  | none => (.error (storeFailMsg "Chunks must be provided in the input object".toList), db)
  | some chunks =>
    if (dedupByUrl input db).nextDocId = 0 then
      -- `if (!document || !document.id)`: a falsy id aborts the ingest
      -- (unreachable for well-formed states, since serials start at 1).
      (.error (storeFailMsg "Failed to insert document - no ID returned".toList),
       dbAfterInsert input db)
    else
      let res3 := chunkInsertLoop embedC persistC (dedupByUrl input db).nextDocId chunks 0
        (dbAfterInsert input db) 0
      if res3.2 = 0 then
        (.error (storeFailMsg "Failed to create any chunks for document".toList),
         deleteDocById res3.1 (dedupByUrl input db).nextDocId)
      else
        (.ok { id := (dedupByUrl input db).nextDocId, url := normUrl input.url,
               title := orNull input.title, chunksCreated := res3.2 }, res3.1)

/-- One `storeDocument` call together with the behaviour of its external
collaborators during that call. -/
structure StoreCall where
  embedC : Str → Except Str Vec
  persistC : Nat → Bool
  input : StoreInput

/-- Run a sequence of `storeDocument` calls against a database. -/
def runCalls (calls : List StoreCall) (db : DB) : DB :=
  calls.foldl (fun s c => (storeDocument c.embedC c.persistC c.input s).2) db

/-- At most one live document row per non-empty url. -/
def uniqueByUrl (db : DB) : Prop :=
  ∀ u : Str, u ≠ [] → (db.documents.filter (fun d => d.url == some u)).length ≤ 1

/-- A search result row as returned by `vectorSearch`. -/
structure SearchResult where
  chunk_id : Nat
  document_id : Nat
  content : Str
  document_title : Str
  document_url : Option Str
  similarity : ℚ
deriving Repr, DecidableEq

/-- Insert `x` into `l` keeping `l` sorted by ascending `key` (model of
the ordering the SQL `ORDER BY` produces). -/
def insertByKey (key : α → ℚ) (x : α) : List α → List α
  | [] => [x]
  | y :: ys => if key x ≤ key y then x :: y :: ys else y :: insertByKey key x ys

/-- Sort by ascending `key` (insertion sort; any sort realises the SQL
`ORDER BY`, whose tie order is unspecified). -/
def sortByKey (key : α → ℚ) : List α → List α
  | [] => []
  | x :: xs => insertByKey key x (sortByKey key xs)

/-- `vectorSearch` from `src/lib/vector-store.ts`.  The pgvector cosine
distance operator `<=>` is the database engine's, external to the
repository, and is modelled as a parameter `dist`; the SQL computes
`similarity = 1 - dist`, filters to `similarity > similarityThreshold`,
orders by ascending distance and truncates to `limit`, joining each chunk
to its owning document. -/
def vectorSearch (embedC : Str → Except Str Vec) (dist : Vec → Vec → ℚ) (db : DB)
    (query : Str) (lim : Nat) (threshold : ℚ) : Except Str (List SearchResult) :=
  if trimStr query = [] then .ok []
  else
    match embedC query with
    | .error e => .error ("Vector search failed: ".toList ++ e)
    | .ok qv =>
      let joined := db.chunks.filterMap (fun c =>
        match db.documents.find? (fun d => d.id == c.document_id) with
        | some d => some (c, d)
        | none => none)
      let filtered := joined.filter (fun p => decide (threshold < 1 - dist p.1.embedding qv))
      let sorted := sortByKey (fun p => dist p.1.embedding qv) filtered
      .ok ((sorted.take lim).map (fun p =>
        { chunk_id := p.1.id, document_id := p.1.document_id, content := p.1.content,
          document_title := p.2.title, document_url := p.2.url,
          similarity := 1 - dist p.1.embedding qv }))

/-- `getDocumentById` from `src/lib/vector-store.ts`.  The argument is the
outcome of the SQL query (an `error` models a database failure caught by
the function's `try/catch`): `result.length > 0 ? result[0] : null`. -/
def getDocumentById (dbq : Except Str DB) (documentId : Nat) : Option DocRow :=
  match dbq with
  | .error _ => none
  | .ok db =>
    match db.documents.filter (fun d => d.id == documentId) with
    | [] => none
    | d :: _ => some d

/-- `getAllDocuments` from `src/lib/vector-store.ts`: newest first
(`ORDER BY created_at DESC`, i.e. reverse insertion order), `OFFSET`
then `LIMIT`; a database failure yields `[]`. -/
def getAllDocuments (dbq : Except Str DB) (lim offset : Nat) : List DocRow :=
  match dbq with
  | .error _ => []
  | .ok db => (db.documents.reverse.drop offset).take lim

/-- `deleteDocument` from `src/lib/vector-store.ts`: returns whether a row
was deleted (`result.count > 0`); a database failure yields `false`. -/
def deleteDocument (dbq : Except Str DB) (documentId : Nat) : Bool :=
  match dbq with
  | .error _ => false
  | .ok db => decide (0 < (db.documents.filter (fun d => d.id == documentId)).length)

/-- `fullTextSearch` from `src/lib/vector-store.ts`.  The `tsvector`
matching and ranking happen inside PostgreSQL (external to the
repository), so the rows produced by a successful query are an oracle
argument; a database failure yields `[]`. -/
def fullTextSearch (queryRes : Except Str (List DocRow)) : List DocRow :=
  match queryRes with
  | .error _ => []
  | .ok rows => rows

/-! ## Derived definitions used in the statements -/

/-- The joining step of `getOverlapText`:
`overlap = sentence + (overlap ? ' ' + overlap : '')`. -/
def stepOv (s acc : Str) : Str := if acc = [] then s else s ++ ' ' :: acc

/-- Join a list of sentences the way `getOverlapText` rebuilds its overlap
string (single spaces, empty strings elided at the seam). -/
def joinOv (l : List Str) : Str := l.foldr stepOv []

/-- The largest trimmed-sentence length among the sentence units
`chunkContent` iterates over. -/
def sentLenMax (text : Str) : Nat :=
  (sentencesOf text).foldr (fun s m => max (trimStr s).length m) 0

/-- Did the fallible computation succeed. -/
def isOkB : Except Str Vec → Bool
  | .ok _ => true
  | .error _ => false

/-- The `(index, content)` pairs of the chunks that `storeDocument`'s loop
persists: non-empty after trimming, embedding succeeded, insert
succeeded. -/
def keepSpec (embedC : Str → Except Str Vec) (persistC : Nat → Bool) :
    List Str → Nat → List (Nat × Str)
  | [], _ => []
  | ch :: rest, i =>
    if trimStr ch = [] then keepSpec embedC persistC rest (i + 1)
    else
      match embedC ch with
      | .error _ => keepSpec embedC persistC rest (i + 1)
      | .ok _ =>
        if persistC i then (i, ch) :: keepSpec embedC persistC rest (i + 1)
        else keepSpec embedC persistC rest (i + 1)

/-- The Boolean persistence test on an `(index, content)` pair. -/
def keepPred (embedC : Str → Except Str Vec) (persistC : Nat → Bool)
    (pr : Nat × Str) : Bool :=
  !(trimStr pr.2 == []) && isOkB (embedC pr.2) && persistC pr.1

/-! ## Concrete fixtures used by witnesses -/

/-- A one-document, one-chunk database state. -/
def dbW : DB :=
  { documents := [{ id := 1, url := none, title := "t".toList, content := "c".toList,
                    file_name := none, file_type := none, file_size := none,
                    source_type := "text".toList }],
    chunks := [{ id := 1, document_id := 1, content := "c".toList, embedding := [1],
                 chunk_index := 0 }],
    nextDocId := 2, nextChunkId := 2 }

/-- The search result `vectorSearch` produces for `dbW` under the constant
zero distance. -/
def searchResultW : SearchResult :=
  { chunk_id := 1, document_id := 1, content := "c".toList,
    document_title := "t".toList, document_url := none, similarity := 1 }

/-- An embedding client that succeeds on every call. -/
def okEmbedW : Str → Except Str Vec := fun _ => .ok [1]

/-- An embedding client that fails on every call. -/
def failEmbedW : Str → Except Str Vec := fun _ => .error "rate limited".toList

/-- A persistence layer on which every chunk `INSERT` succeeds. -/
def allPersistW : Nat → Bool := fun _ => true

/-- A first ingest input for the url `http://x` (its second chunk is
whitespace-only and will be skipped). -/
def inpW1 : StoreInput :=
  { title := "T1".toList, content := "C1".toList,
    chunks := some ["alpha.".toList, " ".toList, "beta.".toList],
    url := some "http://x".toList, file_name := none, file_type := none,
    file_size := none, source_type := none }

/-- A second ingest input for the same url `http://x`. -/
def inpW2 : StoreInput :=
  { title := "T2".toList, content := "C2".toList, chunks := some ["gamma.".toList],
    url := some "http://x".toList, file_name := none, file_type := none,
    file_size := none, source_type := none }

/-- The document row result of the first ingest. -/
def rW1 : StoredDocument :=
  { id := 1, url := some "http://x".toList, title := some "T1".toList, chunksCreated := 2 }

/-- The state after the first ingest of `http://x`. -/
def dbW1 : DB := (storeDocument okEmbedW allPersistW inpW1 emptyDB).2

/-- The document row result of the second (replacing) ingest. -/
def rW2 : StoredDocument :=
  { id := 2, url := some "http://x".toList, title := some "T2".toList, chunksCreated := 1 }

/-- The state after re-ingesting `http://x` with fresh content. -/
def dbW2 : DB := (storeDocument okEmbedW allPersistW inpW2 dbW1).2

/-- The state after re-ingesting `http://x` with an embedding client that
fails on every call. -/
def dbW2fail : DB := (storeDocument failEmbedW allPersistW inpW2 dbW1).2

/-! ## Helper lemmas -/

theorem trimStr_length_le (s : Str) : (trimStr s).length ≤ s.length := by
  unfold trimStr
  calc ((s.dropWhile isWS).reverse.dropWhile isWS).reverse.length
      = ((s.dropWhile isWS).reverse.dropWhile isWS).length := by
        exact List.length_reverse _
    _ ≤ (s.dropWhile isWS).reverse.length := (List.dropWhile_sublist _).length_le
    _ = (s.dropWhile isWS).length := List.length_reverse _
    _ ≤ s.length := (List.dropWhile_sublist _).length_le

theorem overlapLoop_length_le (budget : Nat) :
    ∀ (rev : List Str) (ov : Str) (curLen : Nat),
      curLen = ov.length → ov.length ≤ budget + 1 →
      (overlapLoop budget rev ov curLen).length ≤ budget + 1 := by
  intro rev
  induction rev with
  | nil => intro ov curLen _ h2; simpa [overlapLoop] using h2
  | cons s rest ih =>
    intro ov curLen h1 h2
    by_cases hfit : curLen + s.length ≤ budget
    · rw [overlapLoop, if_pos hfit]
      by_cases hov : ov = []
      · subst hov
        simp only [List.length_nil] at h1
        subst h1
        have hov' : ovJoin s [] = s := by simp [ovJoin]
        rw [hov']
        have hif : (if s ≠ s then 1 else 0) = 0 := by simp
        rw [hif]
        exact ih s (0 + s.length + 0) (by simp) (by omega)
      · have hne : ovJoin s ov ≠ s := by
          unfold ovJoin
          rw [if_neg hov]
          intro heq
          have := congrArg List.length heq
          simp at this
        have hif : (if ovJoin s ov ≠ s then 1 else 0) = 1 := if_pos hne
        rw [hif]
        refine ih (ovJoin s ov) (curLen + s.length + 1) ?_ ?_
        · simp [ovJoin, if_neg hov, h1]; omega
        · simp only [ovJoin, if_neg hov, List.length_append, List.length_cons]
          omega
    · rw [overlapLoop, if_neg hfit]
      exact h2

theorem getOverlapText_length_le (text : Str) (b : Nat) :
    (getOverlapText text b).length ≤ b + 1 := by
  unfold getOverlapText
  by_cases h : (text = [] || b = 0) = true
  · rw [if_pos h]; simp
  · rw [if_neg h]
    exact overlapLoop_length_le b _ [] 0 rfl (by simp)

theorem overlapLoop_suffix (budget : Nat) :
    ∀ (rev : List Str) (ov : Str) (curLen : Nat),
      ∃ k, k ≤ rev.length ∧
        overlapLoop budget rev ov curLen = List.foldr stepOv ov (rev.take k).reverse := by
  intro rev
  induction rev with
  | nil => intro ov curLen; exact ⟨0, by simp, by simp [overlapLoop]⟩
  | cons s rest ih =>
    intro ov curLen
    by_cases hfit : curLen + s.length ≤ budget
    · rw [overlapLoop, if_pos hfit]
      obtain ⟨k, hk, hres⟩ :=
        ih (ovJoin s ov) (curLen + s.length + (if ovJoin s ov ≠ s then 1 else 0))
      refine ⟨k + 1, by simpa using Nat.succ_le_succ hk, ?_⟩
      rw [hres]
      have hstep : ovJoin s ov = stepOv s ov := by
        by_cases hov : ov = [] <;> simp [ovJoin, stepOv, hov]
      rw [hstep]
      rw [show ((s :: rest).take (k + 1)).reverse = (rest.take k).reverse ++ [s] by simp]
      rw [List.foldr_append]
      simp
    · rw [overlapLoop, if_neg hfit]
      exact ⟨0, by simp, by simp⟩

theorem trimStr_eq_nil_iff (s : Str) : trimStr s = [] ↔ ∀ c ∈ s, isWS c = true := by
  unfold trimStr
  rw [List.reverse_eq_nil_iff, List.dropWhile_eq_nil_iff]
  constructor
  · intro h c hc
    rw [← List.takeWhile_append_dropWhile isWS s] at hc
    rcases List.mem_append.mp hc with h1 | h1
    · exact List.mem_takeWhile_imp h1
    · exact h c (List.mem_reverse.mpr h1)
  · intro h c hc
    exact h c ((List.dropWhile_sublist isWS).subset (List.mem_reverse.mp hc))

theorem le_foldr_max {α : Type} (f : α → Nat) :
    ∀ (l : List α) (x : α), x ∈ l → f x ≤ l.foldr (fun a m => max (f a) m) 0 := by
  intro l
  induction l with
  | nil => intro x hx; cases hx
  | cons a l ih =>
    intro x hx
    rcases List.mem_cons.mp hx with h | h
    · subst h; exact Nat.le_max_left _ _
    · exact Nat.le_trans (ih x h) (Nat.le_max_right _ _)

theorem chunkLoop_bound (o : ChunkOptions) (L B : Nat)
    (hM : o.maxLength + 1 ≤ B) (hOv : o.overlap + 2 + L ≤ B) :
    ∀ (sents chunks : List Str) (cur : Str) (curLen : Nat),
      (∀ s ∈ sents, (trimStr s).length ≤ L) →
      curLen = cur.length → cur.length ≤ B →
      (∀ c ∈ chunks, c.length ≤ B) →
      (∀ c ∈ (chunkLoop o sents chunks cur curLen).1, c.length ≤ B) ∧
        (chunkLoop o sents chunks cur curLen).2.length ≤ B := by
  intro sents
  induction sents with
  | nil =>
    intro chunks cur curLen _ _ hcur hchunks
    exact ⟨by simpa [chunkLoop] using hchunks, by simpa [chunkLoop] using hcur⟩
  | cons s0 rest ih =>
    intro chunks cur curLen hsents hsync hcur hchunks
    have hs0 : (trimStr s0).length ≤ L := hsents s0 (List.mem_cons_self _ _)
    have hrest : ∀ s ∈ rest, (trimStr s).length ≤ L :=
      fun s hs => hsents s (List.mem_cons_of_mem _ hs)
    have hLB : L ≤ B := by omega
    have happend : ∀ c ∈ chunks ++ [trimStr cur], c.length ≤ B := by
      intro c hc
      rcases List.mem_append.mp hc with hmem | hmem
      · exact hchunks c hmem
      · simp only [List.mem_singleton] at hmem
        subst hmem
        exact Nat.le_trans (trimStr_length_le cur) hcur
    have hseed : ((getOverlapText cur o.overlap ++
        (if getOverlapText cur o.overlap ≠ [] then [' '] else [])) ++ trimStr s0).length ≤ B := by
      have hov := getOverlapText_length_le cur o.overlap
      have hsep : (if getOverlapText cur o.overlap ≠ [] then [' '] else ([] : Str)).length ≤ 1 := by
        split <;> simp
      simp only [List.length_append]
      omega
    simp only [chunkLoop]
    split
    · -- overflow: close the current chunk
      split <;> split
      · exact ih _ _ _ hrest rfl hseed happend
      · exact ih _ _ _ hrest rfl (Nat.le_trans hs0 hLB) happend
      · exact ih _ _ _ hrest rfl hseed hchunks
      · exact ih _ _ _ hrest rfl (Nat.le_trans hs0 hLB) hchunks
    · -- no overflow: append the sentence
      rename_i hcond
      split
      · rename_i hne
        have hpos : 0 < cur.length := List.length_pos.mpr hne
        have hle : curLen + (trimStr s0).length ≤ o.maxLength := by
          simp only [Bool.and_eq_true, decide_eq_true_eq, not_and, Nat.not_lt] at hcond
          rcases Nat.lt_or_ge o.maxLength (curLen + (trimStr s0).length) with hl | hl
          · have := hcond hl
            omega
          · exact hl
        refine ih _ _ _ hrest ?_ ?_ hchunks
        · simp [hsync]
          omega
        · simp only [List.length_append, List.length_cons]
          omega
      · exact ih _ _ _ hrest rfl (Nat.le_trans hs0 hLB) hchunks

/-! ## Claims -/

/-- Claim C3, counterexample to the claim as stated: the input `" "` is a
non-empty string, yet `chunkContent` returns the empty sequence (the
source returns `[]` for any input that is empty after trimming, not only
for the empty string). -/
theorem claim_C3_counterexample :
    (" ".toList : Str) ≠ [] ∧
      chunkContent " ".toList { maxLength := 1000, overlap := 100, minChunkLength := 100 }
        = [] := by
  constructor
  · decide
  · decide

/-- Claim C3 (amended): for every input text that is non-empty after
trimming, `chunkContent` returns a non-empty sequence — if the greedy
sentence-accumulation loop yields zero chunks, the single fallback chunk
(the trimmed input truncated to `maxLength`) is emitted instead of an
empty result. -/
theorem claim_C3_nonempty_input_nonempty_output :
    ∀ (text : Str) (o : ChunkOptions), trimStr text ≠ [] → chunkContent text o ≠ [] := by
  intro text o h
  have h0 : ¬((trimStr text).length = 0) :=
    fun hl => h (List.eq_nil_of_length_eq_zero hl)
  simp only [chunkContent]
  rw [if_neg h0]
  by_cases hs : sentencesOf text = []
  · rw [if_pos hs]
    split <;> simp
  · rw [if_neg hs]
    have hlen : 0 < (trimStr text).length := Nat.pos_of_ne_zero h0
    split <;> split
    · simp
    · rename_i hcond
      intro hnil
      simp [hnil, hlen] at hcond
    · simp
    · rename_i hcond
      intro hnil
      simp [hnil, hlen] at hcond

/-- Witness for the amended claim C3 at the concrete input `"a."`. -/
theorem claim_C3_witness :
    trimStr "a.".toList ≠ [] ∧
      chunkContent "a.".toList { maxLength := 1000, overlap := 100, minChunkLength := 100 }
        ≠ [] :=
  ⟨by decide, claim_C3_nonempty_input_nonempty_output "a.".toList
    { maxLength := 1000, overlap := 100, minChunkLength := 100 } (by decide)⟩

/-- Claim C4, counterexample to the claim as stated: for the unsplittable
input of twelve `a`s with `maxLength = 5`, `chunkContent` returns the
whole twelve-character input as one chunk — longer than `maxLength` and
NOT truncated to `maxLength` (the truncating branch of the source, line
31, is unreachable for non-empty input: the single run-on sentence flows
through the main accumulation loop and is emitted whole). -/
theorem claim_C4_counterexample :
    chunkContent "aaaaaaaaaaaa".toList { maxLength := 5, overlap := 0, minChunkLength := 1 }
        = ["aaaaaaaaaaaa".toList] ∧
      5 < ("aaaaaaaaaaaa".toList : Str).length := by
  constructor
  · decide
  · decide

/-- Claim C4 (amended): every chunk returned by `chunkContent` has length
at most `max (maxLength + 1) (overlap + 2 + sentLenMax text)`, where
`sentLenMax text` is the longest trimmed sentence unit of the input.  A
chunk can exceed `maxLength` exactly through an over-long single sentence
(carried whole, untruncated — not only in the no-sentence-boundary
degenerate path, which actually never truncates either) or through
overlap seeding, and the unchecked joining spaces add at most one
character beyond each budget. -/
theorem claim_C4_chunk_length_bound :
    ∀ (text : Str) (o : ChunkOptions) (c : Str),
      c ∈ chunkContent text o →
      c.length ≤ max (o.maxLength + 1) (o.overlap + 2 + sentLenMax text) := by
  intro text o c hc
  have hM : o.maxLength + 1 ≤ max (o.maxLength + 1) (o.overlap + 2 + sentLenMax text) :=
    Nat.le_max_left _ _
  have hOv : o.overlap + 2 + sentLenMax text
      ≤ max (o.maxLength + 1) (o.overlap + 2 + sentLenMax text) :=
    Nat.le_max_right _ _
  simp only [chunkContent] at hc
  split at hc
  · cases hc
  · split at hc
    · split at hc
      · simp only [List.mem_singleton] at hc
        subst hc
        have : (text.take o.maxLength).length ≤ o.maxLength := by
          simp [List.length_take]
        omega
      · rename_i hlen
        simp only [List.mem_singleton] at hc
        subst hc
        have : c.length ≤ o.maxLength := Nat.le_of_not_lt hlen
        omega
    · have hloop := chunkLoop_bound o (sentLenMax text)
        (max (o.maxLength + 1) (o.overlap + 2 + sentLenMax text)) hM hOv
        (sentencesOf text) [] [] 0
        (fun s hs => le_foldr_max (fun s => (trimStr s).length) _ s hs)
        rfl (by simp) (by simp)
      split at hc <;> split at hc
      · simp only [List.mem_singleton] at hc
        subst hc
        have : ((trimStr text).take o.maxLength).length ≤ o.maxLength := by
          simp [List.length_take]
        omega
      · rcases List.mem_append.mp hc with hmem | hmem
        · exact hloop.1 c hmem
        · simp only [List.mem_singleton] at hmem
          subst hmem
          exact Nat.le_trans (trimStr_length_le _) hloop.2
      · simp only [List.mem_singleton] at hc
        subst hc
        have : ((trimStr text).take o.maxLength).length ≤ o.maxLength := by
          simp [List.length_take]
        omega
      · exact hloop.1 c hc

/-- Witness for the amended claim C4: the twelve-`a` chunk is a member of
the output and satisfies the proved bound. -/
theorem claim_C4_witness :
    ("aaaaaaaaaaaa".toList : Str) ∈
        chunkContent "aaaaaaaaaaaa".toList { maxLength := 5, overlap := 0, minChunkLength := 1 } ∧
      ("aaaaaaaaaaaa".toList : Str).length ≤
        max (5 + 1) (0 + 2 + sentLenMax "aaaaaaaaaaaa".toList) :=
  ⟨by decide,
   claim_C4_chunk_length_bound "aaaaaaaaaaaa".toList
     { maxLength := 5, overlap := 0, minChunkLength := 1 } _ (by decide)⟩

/-- Claim C5, counterexample to the claim as stated: with overlap budget
`5`, `getOverlapText "a. bc." 5` returns the whole string `"a. bc."` of
length `6 > 5` — the joining space between the two retained sentences is
not counted by the acceptance test, so the combined overlap prefix DOES
exceed the `overlap` budget. -/
theorem claim_C5_counterexample :
    getOverlapText "a. bc.".toList 5 = "a. bc.".toList ∧
      5 < (getOverlapText "a. bc.".toList 5).length := by
  constructor
  · decide
  · decide

/-- Claim C5 (amended): the overlap prefix produced by `getOverlapText`
consists of whole trailing sentences of the just-closed chunk (a suffix of
its sentence split, joined back the way the source joins them), taken
walking backward from its end, and its combined length is at most
`overlap + 1` characters — the single joining space accepted together
with the last retained sentence escapes the budget check, so the budget
can be exceeded by exactly one character, never more. -/
theorem claim_C5_overlap_is_bounded_sentence_suffix :
    ∀ (text : Str) (b : Nat),
      ∃ pre suf : List Str,
        splitBySentences text = pre ++ suf ∧
        getOverlapText text b = joinOv suf ∧
        (getOverlapText text b).length ≤ b + 1 := by
  intro text b
  unfold getOverlapText
  by_cases h : (text = [] || b = 0) = true
  · rw [if_pos h]
    exact ⟨splitBySentences text, [], by simp, by simp [joinOv], by simp⟩
  · rw [if_neg h]
    obtain ⟨k, _, hres⟩ := overlapLoop_suffix b (splitBySentences text).reverse [] 0
    refine ⟨((splitBySentences text).reverse.drop k).reverse,
            ((splitBySentences text).reverse.take k).reverse, ?_, ?_, ?_⟩
    · calc splitBySentences text
          = (splitBySentences text).reverse.reverse := (List.reverse_reverse _).symm
        _ = ((splitBySentences text).reverse.take k
              ++ (splitBySentences text).reverse.drop k).reverse := by
            rw [List.take_append_drop]
        _ = ((splitBySentences text).reverse.drop k).reverse
              ++ ((splitBySentences text).reverse.take k).reverse := by
            rw [List.reverse_append]
    · rw [hres]
      rfl
    · exact overlapLoop_length_le b _ [] 0 rfl (by simp)

/-- Claim C9: `chunkContentByTokens` is a pure delegation to
`chunkContent` with `maxLength = maxTokens * 4`,
`overlap = overlapTokens * 4` and a `minChunkLength` floor of `50`. -/
theorem claim_C9_token_variant_delegates :
    ∀ (text : Str) (maxTokens overlapTokens : Nat),
      chunkContentByTokens text maxTokens overlapTokens =
        chunkContent text
          { maxLength := maxTokens * 4, overlap := overlapTokens * 4,
            minChunkLength := 50 } :=
  fun _ _ _ => rfl

/-- Claim C8: for every query that is empty or whitespace-only,
`vectorSearch` returns the empty sequence immediately — for EVERY
embedding oracle (including an always-failing one, so the embedding
client is never consulted) and for EVERY database state (so the store is
never queried). -/
theorem claim_C8_empty_query_short_circuits :
    ∀ (embedC : Str → Except Str Vec) (dist : Vec → Vec → ℚ) (db : DB)
      (query : Str) (lim : Nat) (threshold : ℚ),
      trimStr query = [] →
      vectorSearch embedC dist db query lim threshold = .ok [] := by
  intro embedC dist db query lim threshold h
  unfold vectorSearch
  rw [if_pos h]

/-- Witness for claim C8: the whitespace query `"  "` against a non-empty
store, with an embedding client that fails on every call. -/
theorem claim_C8_witness :
    trimStr "  ".toList = [] ∧
      vectorSearch (fun _ => .error "service down".toList) (fun _ _ => 0)
        { documents := [{ id := 1, url := none, title := "t".toList,
                          content := "c".toList, file_name := none, file_type := none,
                          file_size := none, source_type := "text".toList }],
          chunks := [{ id := 1, document_id := 1, content := "c".toList,
                       embedding := [1], chunk_index := 0 }],
          nextDocId := 2, nextChunkId := 2 }
        "  ".toList 5 (7/10) = .ok [] :=
  ⟨by decide,
   claim_C8_empty_query_short_circuits _ _ _ _ _ _ (by decide)⟩

/-- Claim C10: the read/delete helpers never propagate an internal
(database) failure: `getDocumentById` returns `null`, `getAllDocuments`
returns `[]`, `deleteDocument` returns `false` and `fullTextSearch`
returns `[]` on any query-layer error — unlike `vectorSearch` (which
rethrows an embedding failure for a non-empty query) and `storeDocument`
(which rethrows, e.g., the missing-chunks error). -/
theorem claim_C10_read_helpers_swallow_errors :
    ∀ (e : Str) (documentId lim offset : Nat),
      getDocumentById (.error e) documentId = none ∧
      getAllDocuments (.error e) lim offset = [] ∧
      deleteDocument (.error e) documentId = false ∧
      fullTextSearch (.error e) = [] ∧
      (∀ (embedC : Str → Except Str Vec) (dist : Vec → Vec → ℚ) (db : DB)
        (query : Str) (lim2 : Nat) (th : ℚ) (msg : Str),
        trimStr query ≠ [] → embedC query = .error msg →
        vectorSearch embedC dist db query lim2 th =
          .error ("Vector search failed: ".toList ++ msg)) ∧
      (∀ (embedC : Str → Except Str Vec) (persistC : Nat → Bool)
        (input : StoreInput) (db : DB),
        input.chunks = none →
        (storeDocument embedC persistC input db).1 =
          .error (storeFailMsg "Chunks must be provided in the input object".toList)) := by
  intro e documentId lim offset
  refine ⟨rfl, rfl, rfl, rfl, ?_, ?_⟩
  · intro embedC dist db query lim2 th msg hq hemb
    unfold vectorSearch
    rw [if_neg hq, hemb]
  · intro embedC persistC input db hch
    unfold storeDocument
    rw [hch]

/-- Witness for claim C10 at concrete inputs: a failed query layer for
each helper, a failing embedding client for `vectorSearch`, and an input
object without a `chunks` field for `storeDocument`. -/
theorem claim_C10_witness :
    getDocumentById (.error "connection refused".toList) 7 = none ∧
      getAllDocuments (.error "connection refused".toList) 50 0 = [] ∧
      deleteDocument (.error "connection refused".toList) 7 = false ∧
      fullTextSearch (.error "connection refused".toList) = [] ∧
      vectorSearch (fun _ => .error "bad gateway".toList) (fun _ _ => 0) emptyDB
          "query".toList 5 (7/10) =
        .error ("Vector search failed: ".toList ++ "bad gateway".toList) ∧
      (storeDocument (fun _ => .ok [1]) (fun _ => true)
          { title := "t".toList, content := "c".toList, chunks := none, url := none,
            file_name := none, file_type := none, file_size := none,
            source_type := none } emptyDB).1 =
        .error (storeFailMsg "Chunks must be provided in the input object".toList) := by
  have h := claim_C10_read_helpers_swallow_errors "connection refused".toList 7 50 0
  exact ⟨h.1, h.2.1, h.2.2.1, h.2.2.2.1,
    h.2.2.2.2.1 _ _ emptyDB "query".toList 5 (7/10) "bad gateway".toList (by decide) rfl,
    h.2.2.2.2.2 _ _ _ emptyDB rfl⟩

theorem mem_insertByKey {α : Type} (key : α → ℚ) (x : α) :
    ∀ (l : List α) (a : α), a ∈ insertByKey key x l ↔ a = x ∨ a ∈ l := by
  intro l
  induction l with
  | nil => intro a; simp [insertByKey]
  | cons y ys ih =>
    intro a
    simp only [insertByKey]
    split
    · simp [List.mem_cons]
    · rw [List.mem_cons, ih, List.mem_cons]
      tauto

theorem pairwise_insertByKey {α : Type} (key : α → ℚ) (x : α) :
    ∀ l : List α, l.Pairwise (fun a b => key a ≤ key b) →
      (insertByKey key x l).Pairwise (fun a b => key a ≤ key b) := by
  intro l
  induction l with
  | nil => intro _; simp [insertByKey]
  | cons y ys ih =>
    intro hp
    rw [List.pairwise_cons] at hp
    obtain ⟨hy, hys⟩ := hp
    simp only [insertByKey]
    split
    · rename_i hle
      rw [List.pairwise_cons]
      refine ⟨?_, List.pairwise_cons.mpr ⟨hy, hys⟩⟩
      intro b hb
      rcases List.mem_cons.mp hb with rfl | hb
      · exact hle
      · exact le_trans hle (hy b hb)
    · rename_i hgt
      rw [List.pairwise_cons]
      refine ⟨?_, ih hys⟩
      intro b hb
      rcases (mem_insertByKey key x ys b).mp hb with rfl | hb
      · exact le_of_not_le hgt
      · exact hy b hb

theorem pairwise_sortByKey {α : Type} (key : α → ℚ) :
    ∀ l : List α, (sortByKey key l).Pairwise (fun a b => key a ≤ key b) := by
  intro l
  induction l with
  | nil => simp [sortByKey]
  | cons x xs ih => exact pairwise_insertByKey key x _ ih

theorem mem_sortByKey {α : Type} (key : α → ℚ) :
    ∀ (l : List α) (a : α), a ∈ sortByKey key l ↔ a ∈ l := by
  intro l
  induction l with
  | nil => intro a; simp [sortByKey]
  | cons x xs ih =>
    intro a
    simp only [sortByKey]
    rw [mem_insertByKey, List.mem_cons]
    simp [ih]

/-- Claim C7: every successful `vectorSearch` returns only results with
similarity strictly greater than the threshold, sorted descending by
similarity, at most `limit` of them; and whenever the distance operator is
non-negative (as pgvector's cosine distance is, so similarity
`= 1 − distance` never exceeds `1.0`), the threshold `1.01` forces an
empty result. -/
theorem claim_C7_vectorSearch_contract :
    ∀ (embedC : Str → Except Str Vec) (dist : Vec → Vec → ℚ) (db : DB)
      (query : Str) (lim : Nat) (threshold : ℚ) (rs : List SearchResult),
      vectorSearch embedC dist db query lim threshold = .ok rs →
      (∀ r ∈ rs, threshold < r.similarity) ∧
      rs.Pairwise (fun a b => b.similarity ≤ a.similarity) ∧
      rs.length ≤ lim ∧
      ((∀ a b, 0 ≤ dist a b) → threshold = 101 / 100 → rs = []) := by
  intro embedC dist db query lim threshold rs h
  unfold vectorSearch at h
  split at h
  · simp only [Except.ok.injEq] at h
    subst h
    simp
  · split at h
    · cases h
    · rename_i qv hqv
      simp only [Except.ok.injEq] at h
      subst h
      refine ⟨?_, ?_, ?_, ?_⟩
      · intro r hr
        rw [List.mem_map] at hr
        obtain ⟨p, hp, rfl⟩ := hr
        have hp1 : p ∈ sortByKey (fun p => dist p.1.embedding qv)
            (List.filter (fun p => decide (threshold < 1 - dist p.1.embedding qv)) _) :=
          (List.take_sublist _ _).subset hp
        rw [mem_sortByKey] at hp1
        have := (List.mem_filter.mp hp1).2
        simpa using this
      · rw [List.pairwise_map]
        refine List.Pairwise.imp ?_
          ((pairwise_sortByKey _ _).sublist (List.take_sublist _ _))
        intro a b hab
        simpa using sub_le_sub_left hab 1
      · simp only [List.length_map, List.length_take]
        exact Nat.min_le_left _ _
      · intro hd hth
        subst hth
        have hnil : List.filter (fun p => decide ((101 : ℚ) / 100 < 1 - dist p.1.embedding qv))
            (db.chunks.filterMap (fun c =>
              match db.documents.find? (fun d => d.id == c.document_id) with
              | some d => some (c, d)
              | none => none)) = [] := by
          rw [List.filter_eq_nil_iff]
          intro p _
          simp only [decide_eq_true_eq, not_lt]
          have h0 : 0 ≤ dist p.1.embedding qv := hd _ _
          linarith
        rw [hnil]
        simp [sortByKey]

/-- Witness for claim C7: a concrete successful search against `dbW` with
the constant zero distance, threshold `0.7` and limit `5` returns exactly
one result of similarity `1`. -/
theorem claim_C7_witness :
    (∀ r ∈ [searchResultW], (7 : ℚ) / 10 < r.similarity) ∧
      [searchResultW].Pairwise (fun a b => b.similarity ≤ a.similarity) ∧
      [searchResultW].length ≤ 5 ∧
      ((∀ _a _b : Vec, (0 : ℚ) ≤ 0) → (7 : ℚ) / 10 = 101 / 100 → [searchResultW] = []) :=
  claim_C7_vectorSearch_contract (fun _ => .ok [1]) (fun _ _ => 0) dbW "q".toList 5
    (7 / 10) [searchResultW]
    (by norm_num [vectorSearch, dbW, searchResultW, sortByKey, insertByKey]; decide)

theorem keepSpec_eq_filter_enumFrom (embedC : Str → Except Str Vec) (persistC : Nat → Bool) :
    ∀ (chs : List Str) (i : Nat),
      keepSpec embedC persistC chs i = (List.enumFrom i chs).filter (keepPred embedC persistC) := by
  intro chs
  induction chs with
  | nil => intro i; simp [keepSpec]
  | cons ch rest ih =>
    intro i
    rw [keepSpec]
    rw [show List.enumFrom i (ch :: rest) = (i, ch) :: List.enumFrom (i + 1) rest from rfl]
    rw [List.filter_cons]
    by_cases ht : trimStr ch = []
    · rw [if_pos ht]
      have : keepPred embedC persistC (i, ch) = false := by
        simp [keepPred, ht]
      rw [this]
      simp [ih]
    · rw [if_neg ht]
      cases hemb : embedC ch with
      | error e =>
        have : keepPred embedC persistC (i, ch) = false := by
          simp [keepPred, hemb, isOkB]
        rw [this]
        simp [ih]
      | ok v =>
        by_cases hp : persistC i = true
        · have : keepPred embedC persistC (i, ch) = true := by
            simp [keepPred, hemb, isOkB, ht, hp]
          rw [this, if_pos hp]
          simp [ih]
        · have : keepPred embedC persistC (i, ch) = false := by
            simp [keepPred, hemb, isOkB, hp]
          rw [this, if_neg hp]
          simp [ih]

theorem le_fst_of_mem_enumFrom {α : Type} :
    ∀ (l : List α) (n : Nat) (pr : Nat × α), pr ∈ List.enumFrom n l → n ≤ pr.1 := by
  intro l
  induction l with
  | nil => intro n pr h; cases h
  | cons a l ih =>
    intro n pr h
    rcases List.mem_cons.mp h with rfl | h
    · exact Nat.le_refl _
    · exact Nat.le_trans (Nat.le_succ _) (ih (n + 1) pr h)

theorem pairwise_fst_lt_enumFrom {α : Type} :
    ∀ (l : List α) (n : Nat),
      (List.enumFrom n l).Pairwise (fun a b => a.1 < b.1) := by
  intro l
  induction l with
  | nil => intro n; simp
  | cons a l ih =>
    intro n
    rw [show List.enumFrom n (a :: l) = (n, a) :: List.enumFrom (n + 1) l from rfl]
    rw [List.pairwise_cons]
    refine ⟨?_, ih (n + 1)⟩
    intro pr hpr
    exact Nat.lt_of_lt_of_le (Nat.lt_succ_self n) (le_fst_of_mem_enumFrom l (n + 1) pr hpr)

theorem snd_mem_of_mem_enumFrom {α : Type} :
    ∀ (l : List α) (n : Nat) (pr : Nat × α), pr ∈ List.enumFrom n l → pr.2 ∈ l := by
  intro l
  induction l with
  | nil => intro n pr h; cases h
  | cons a l ih =>
    intro n pr h
    rcases List.mem_cons.mp h with rfl | h
    · exact List.mem_cons_self _ _
    · exact List.mem_cons_of_mem _ (ih (n + 1) pr h)

theorem chunkInsertLoop_spec (embedC : Str → Except Str Vec) (persistC : Nat → Bool)
    (docId : Nat) :
    ∀ (chs : List Str) (i : Nat) (db : DB) (created : Nat),
      ∃ newRows : List ChunkRow,
        (chunkInsertLoop embedC persistC docId chs i db created).1.documents = db.documents ∧
        (chunkInsertLoop embedC persistC docId chs i db created).1.nextDocId = db.nextDocId ∧
        (chunkInsertLoop embedC persistC docId chs i db created).1.chunks
          = db.chunks ++ newRows ∧
        newRows.map (fun c => (c.chunk_index, c.content)) = keepSpec embedC persistC chs i ∧
        (∀ r ∈ newRows, r.document_id = docId) ∧
        (chunkInsertLoop embedC persistC docId chs i db created).2
          = created + (keepSpec embedC persistC chs i).length := by
  intro chs
  induction chs with
  | nil =>
    intro i db created
    exact ⟨[], rfl, rfl, by simp [chunkInsertLoop], by simp [keepSpec], by simp,
      by simp [chunkInsertLoop, keepSpec]⟩
  | cons ch rest ih =>
    intro i db created
    by_cases ht : trimStr ch = []
    · have heq : chunkInsertLoop embedC persistC docId (ch :: rest) i db created
          = chunkInsertLoop embedC persistC docId rest (i + 1) db created := by
        simp only [chunkInsertLoop, if_pos ht]
      have hk : keepSpec embedC persistC (ch :: rest) i = keepSpec embedC persistC rest (i + 1) := by
        simp only [keepSpec, if_pos ht]
      rw [heq, hk]
      exact ih (i + 1) db created
    · cases hemb : embedC ch with
      | error e =>
        have heq : chunkInsertLoop embedC persistC docId (ch :: rest) i db created
            = chunkInsertLoop embedC persistC docId rest (i + 1) db created := by
          simp only [chunkInsertLoop, if_neg ht, hemb]
        have hk : keepSpec embedC persistC (ch :: rest) i
            = keepSpec embedC persistC rest (i + 1) := by
          simp only [keepSpec, if_neg ht, hemb]
        rw [heq, hk]
        exact ih (i + 1) db created
      | ok emb =>
        by_cases hp : persistC i = true
        · have heq : chunkInsertLoop embedC persistC docId (ch :: rest) i db created
              = chunkInsertLoop embedC persistC docId rest (i + 1)
                  { db with
                    chunks := db.chunks ++ [(⟨db.nextChunkId, docId, ch, emb, i⟩ : ChunkRow)],
                    nextChunkId := db.nextChunkId + 1 } (created + 1) := by
            simp only [chunkInsertLoop, if_neg ht, hemb, hp, if_pos]
          have hk : keepSpec embedC persistC (ch :: rest) i
              = (i, ch) :: keepSpec embedC persistC rest (i + 1) := by
            simp only [keepSpec, if_neg ht, hemb, hp, if_pos]
          obtain ⟨rows, h1, h2, h3, h4, h5, h6⟩ := ih (i + 1)
            { db with
              chunks := db.chunks ++ [(⟨db.nextChunkId, docId, ch, emb, i⟩ : ChunkRow)],
              nextChunkId := db.nextChunkId + 1 } (created + 1)
          refine ⟨(⟨db.nextChunkId, docId, ch, emb, i⟩ : ChunkRow) :: rows, ?_, ?_, ?_, ?_, ?_, ?_⟩
          · rw [heq]
            exact h1
          · rw [heq]
            exact h2
          · rw [heq, h3]
            simp
          · rw [hk, ← h4]
            simp
          · intro r hr
            rcases List.mem_cons.mp hr with rfl | hr
            · rfl
            · exact h5 r hr
          · rw [heq, h6, hk]
            simp only [List.length_cons]
            omega
        · have heq : chunkInsertLoop embedC persistC docId (ch :: rest) i db created
              = chunkInsertLoop embedC persistC docId rest (i + 1) db created := by
            simp only [chunkInsertLoop, if_neg ht, hemb, hp, if_neg]
            simp [hp]
          have hk : keepSpec embedC persistC (ch :: rest) i
              = keepSpec embedC persistC rest (i + 1) := by
            simp only [keepSpec, if_neg ht, hemb]
            simp [hp]
          rw [heq, hk]
          exact ih (i + 1) db created

theorem dedupByUrl_nextDocId (input : StoreInput) (db : DB) :
    (dedupByUrl input db).nextDocId = db.nextDocId := by
  cases hn : normUrl input.url with
  | none => simp [dedupByUrl, hn]
  | some u =>
    simp only [dedupByUrl, hn]
    by_cases hf : db.documents.filter (fun d => d.url == some u) ≠ []
    · rw [if_pos hf]
      rfl
    · rw [if_neg hf]

theorem dedupByUrl_nextChunkId (input : StoreInput) (db : DB) :
    (dedupByUrl input db).nextChunkId = db.nextChunkId := by
  cases hn : normUrl input.url with
  | none => simp [dedupByUrl, hn]
  | some u =>
    simp only [dedupByUrl, hn]
    by_cases hf : db.documents.filter (fun d => d.url == some u) ≠ []
    · rw [if_pos hf]
      rfl
    · rw [if_neg hf]

theorem mem_documents_of_dedup (input : StoreInput) (db : DB) (d : DocRow) :
    d ∈ (dedupByUrl input db).documents → d ∈ db.documents := by
  cases hn : normUrl input.url with
  | none => simp [dedupByUrl, hn]
  | some u =>
    simp only [dedupByUrl, hn]
    split
    · exact fun h => List.mem_of_mem_filter h
    · exact id

theorem mem_chunks_of_dedup (input : StoreInput) (db : DB) (c : ChunkRow) :
    c ∈ (dedupByUrl input db).chunks → c ∈ db.chunks := by
  cases hn : normUrl input.url with
  | none => simp [dedupByUrl, hn]
  | some u =>
    simp only [dedupByUrl, hn]
    split
    · exact fun h => List.mem_of_mem_filter h
    · exact id

theorem dedup_filter_url_eq_nil (input : StoreInput) (db : DB) (u : Str)
    (h : normUrl input.url = some u) :
    (dedupByUrl input db).documents.filter (fun d => d.url == some u) = [] := by
  simp only [dedupByUrl, h]
  split
  · rw [List.filter_eq_nil_iff]
    intro d hd
    simp only [deleteDocsByUrl] at hd
    have hf := List.of_mem_filter hd
    simp only [Bool.not_eq_true'] at hf
    simp [hf]
  · rename_i hne
    rw [not_not] at hne
    exact hne

theorem length_filter_filter_le {α : Type} (p q : α → Bool) (l : List α) :
    ((l.filter q).filter p).length ≤ (l.filter p).length :=
  (List.Sublist.filter p (List.filter_sublist l)).length_le

theorem dedup_kills_old_url_docs (input : StoreInput) (db : DB) (u : Str)
    (h : normUrl input.url = some u) :
    ∀ c ∈ (dedupByUrl input db).chunks, ∀ d ∈ db.documents, d.url = some u →
      c.document_id ≠ d.id := by
  simp only [dedupByUrl, h]
  split
  · intro c hc d hd hdu
    simp only [deleteDocsByUrl] at hc
    have hkeep := List.of_mem_filter hc
    simp only [Bool.not_eq_true'] at hkeep
    intro heq
    have hdid : d.id ∈ (db.documents.filter (fun d => d.url == some u)).map (·.id) :=
      List.mem_map_of_mem _ (List.mem_filter.mpr ⟨hd, by simp [hdu]⟩)
    rw [← heq] at hdid
    simp only [List.contains, List.elem_eq_mem, decide_eq_false_iff_not] at hkeep
    exact hkeep hdid
  · rename_i hne
    rw [not_not] at hne
    intro c _ d hd hdu
    exfalso
    have := List.filter_eq_nil_iff.mp hne d hd
    simp [hdu] at this

/-- Claim C2: when zero chunks are persistable (each chunk is empty after
trimming, or its embedding call fails, or its insert fails), the
just-inserted document row is deleted again and `storeDocument` fails
with an error, so the final state carries no document and no chunk from
this call — it is exactly the state after the dedup-by-url step. -/
theorem claim_C2_zero_chunks_no_orphan :
    ∀ (embedC : Str → Except Str Vec) (persistC : Nat → Bool) (input : StoreInput)
      (db : DB) (chs : List Str) (res : Except Str StoredDocument) (db' : DB),
      wfDB db →
      input.chunks = some chs →
      (∀ pr ∈ chs.enum,
        trimStr pr.2 = [] ∨ (∃ e, embedC pr.2 = .error e) ∨ persistC pr.1 = false) →
      storeDocument embedC persistC input db = (res, db') →
      res = .error (storeFailMsg "Failed to create any chunks for document".toList) ∧
      db'.documents = (dedupByUrl input db).documents ∧
      db'.chunks = (dedupByUrl input db).chunks := by
  intro embedC persistC input db chs res db' hwf hch hfail hstore
  have hkeep : keepSpec embedC persistC chs 0 = [] := by
    rw [keepSpec_eq_filter_enumFrom, List.filter_eq_nil_iff]
    intro pr hpr
    have hdisj := hfail pr (by simpa [List.enum] using hpr)
    intro hp
    simp only [keepPred, Bool.and_eq_true, Bool.not_eq_true', beq_eq_false_iff_ne, ne_eq] at hp
    obtain ⟨⟨h1, h2⟩, h3⟩ := hp
    rcases hdisj with h | ⟨e, he⟩ | h
    · exact h1 h
    · rw [he] at h2
      simp [isOkB] at h2
    · rw [h] at h3
      cases h3
  have hdid : (dedupByUrl input db).nextDocId = db.nextDocId := dedupByUrl_nextDocId input db
  have hd0 : ¬((dedupByUrl input db).nextDocId = 0) := by
    have h1 := hwf.1
    omega
  simp only [storeDocument, hch] at hstore
  rw [if_neg hd0] at hstore
  obtain ⟨rows, h1, h2, h3, h4, h5, h6⟩ := chunkInsertLoop_spec embedC persistC
    (dedupByUrl input db).nextDocId chs 0 (dbAfterInsert input db) 0
  have hrows : rows = [] := by
    rw [hkeep] at h4
    exact List.map_eq_nil_iff.mp h4
  have hcr : (chunkInsertLoop embedC persistC (dedupByUrl input db).nextDocId chs 0
      (dbAfterInsert input db) 0).2 = 0 := by
    rw [h6, hkeep]
    simp
  rw [if_pos hcr] at hstore
  have hres : res = .error (storeFailMsg "Failed to create any chunks for document".toList) :=
    (congrArg Prod.fst hstore).symm
  have hdb : db' = deleteDocById (chunkInsertLoop embedC persistC
      (dedupByUrl input db).nextDocId chs 0 (dbAfterInsert input db) 0).1
      (dedupByUrl input db).nextDocId :=
    (congrArg Prod.snd hstore).symm
  refine ⟨hres, ?_, ?_⟩
  · rw [hdb]
    show ((chunkInsertLoop embedC persistC (dedupByUrl input db).nextDocId chs 0
        (dbAfterInsert input db) 0).1.documents.filter
        (fun d => !(d.id == (dedupByUrl input db).nextDocId)))
      = (dedupByUrl input db).documents
    rw [h1]
    show (((dedupByUrl input db).documents ++ [insertedDoc input db]).filter
        (fun d => !(d.id == (dedupByUrl input db).nextDocId)))
      = (dedupByUrl input db).documents
    rw [List.filter_append]
    have hsingle : ([insertedDoc input db].filter
        (fun d => !(d.id == (dedupByUrl input db).nextDocId))) = [] := by
      simp [insertedDoc]
    rw [hsingle, List.append_nil, List.filter_eq_self]
    intro d hd
    have hmem := mem_documents_of_dedup input db d hd
    have hlt := (hwf.2.1 d hmem).2
    simp only [Bool.not_eq_true', beq_eq_false_iff_ne, ne_eq]
    omega
  · rw [hdb]
    show ((chunkInsertLoop embedC persistC (dedupByUrl input db).nextDocId chs 0
        (dbAfterInsert input db) 0).1.chunks.filter
        (fun c => !(c.document_id == (dedupByUrl input db).nextDocId)))
      = (dedupByUrl input db).chunks
    rw [h3, hrows, List.append_nil]
    show ((dedupByUrl input db).chunks.filter
        (fun c => !(c.document_id == (dedupByUrl input db).nextDocId)))
      = (dedupByUrl input db).chunks
    rw [List.filter_eq_self]
    intro c hc
    have hmem := mem_chunks_of_dedup input db c hc
    have hlt := hwf.2.2 c hmem
    simp only [Bool.not_eq_true', beq_eq_false_iff_ne, ne_eq]
    omega

/-- Claim C6: on a successful `storeDocument` call, the chunk rows
persisted for the new document are exactly the chunks that are non-empty
after trimming, whose embedding call succeeded and whose insert
succeeded — in original list order, each with `chunk_index` equal to its
zero-based position in the input chunk list (so one chunk's failure never
blocks later chunks, skipped chunks leave gaps, and the stored
`chunk_index` values are strictly increasing); `chunksCreated` counts
exactly the persisted chunks. -/
theorem claim_C6_partial_failure_order_preserving :
    ∀ (embedC : Str → Except Str Vec) (persistC : Nat → Bool) (input : StoreInput)
      (db : DB) (chs : List Str) (r : StoredDocument) (db' : DB),
      wfDB db →
      input.chunks = some chs →
      storeDocument embedC persistC input db = (.ok r, db') →
      ((db'.chunks.filter (fun c => c.document_id == r.id)).map
          (fun c => (c.chunk_index, c.content))
        = chs.enum.filter (keepPred embedC persistC)) ∧
      r.chunksCreated = (chs.enum.filter (keepPred embedC persistC)).length ∧
      (db'.chunks.filter (fun c => c.document_id == r.id)).Pairwise
        (fun a b => a.chunk_index < b.chunk_index) := by
  intro embedC persistC input db chs r db' hwf hch hstore
  have hdid : (dedupByUrl input db).nextDocId = db.nextDocId := dedupByUrl_nextDocId input db
  have hd0 : ¬((dedupByUrl input db).nextDocId = 0) := by
    have h1 := hwf.1
    omega
  simp only [storeDocument, hch] at hstore
  rw [if_neg hd0] at hstore
  obtain ⟨rows, h1, h2, h3, h4, h5, h6⟩ := chunkInsertLoop_spec embedC persistC
    (dedupByUrl input db).nextDocId chs 0 (dbAfterInsert input db) 0
  by_cases hcr : (chunkInsertLoop embedC persistC (dedupByUrl input db).nextDocId chs 0
      (dbAfterInsert input db) 0).2 = 0
  · rw [if_pos hcr] at hstore
    exact absurd (congrArg Prod.fst hstore) (by simp)
  · rw [if_neg hcr] at hstore
    have hr : (⟨(dedupByUrl input db).nextDocId, normUrl input.url, orNull input.title,
        (chunkInsertLoop embedC persistC (dedupByUrl input db).nextDocId
          chs 0 (dbAfterInsert input db) 0).2⟩ : StoredDocument) = r := by
      have := congrArg Prod.fst hstore
      simpa using this
    have hdb : (chunkInsertLoop embedC persistC (dedupByUrl input db).nextDocId chs 0
        (dbAfterInsert input db) 0).1 = db' := congrArg Prod.snd hstore
    subst hdb
    have hrid : r.id = (dedupByUrl input db).nextDocId := by
      rw [← hr]
    have hfil : (chunkInsertLoop embedC persistC (dedupByUrl input db).nextDocId chs 0
        (dbAfterInsert input db) 0).1.chunks.filter (fun c => c.document_id == r.id)
        = rows := by
      rw [h3, List.filter_append]
      have hold : (dbAfterInsert input db).chunks.filter
          (fun c => c.document_id == r.id) = [] := by
        rw [List.filter_eq_nil_iff]
        intro c hc
        have hmem := mem_chunks_of_dedup input db c hc
        have hlt := hwf.2.2 c hmem
        rw [hrid]
        simp only [beq_eq_false_iff_ne, ne_eq, Bool.not_eq_true]
        omega
      have hnew : rows.filter (fun c => c.document_id == r.id) = rows := by
        rw [List.filter_eq_self]
        intro c hc
        rw [hrid]
        simp [h5 c hc]
      rw [hold, hnew, List.nil_append]
    refine ⟨?_, ?_, ?_⟩
    · rw [hfil, h4, keepSpec_eq_filter_enumFrom]
      rfl
    · rw [← hr]
      show (chunkInsertLoop embedC persistC (dedupByUrl input db).nextDocId chs 0
          (dbAfterInsert input db) 0).2 = (chs.enum.filter (keepPred embedC persistC)).length
      rw [h6, keepSpec_eq_filter_enumFrom]
      simp [List.enum]
    · rw [hfil]
      have hpw : (rows.map (fun c => (c.chunk_index, c.content))).Pairwise
          (fun a b => a.1 < b.1) := by
        rw [h4, keepSpec_eq_filter_enumFrom]
        exact List.Pairwise.filter _ (pairwise_fst_lt_enumFrom chs 0)
      rw [List.pairwise_map] at hpw
      exact hpw

theorem storeDocument_preserves_uniqueByUrl (embedC : Str → Except Str Vec)
    (persistC : Nat → Bool) (input : StoreInput) (db : DB) :
    uniqueByUrl db → uniqueByUrl (storeDocument embedC persistC input db).2 := by
  intro hu
  cases hch : input.chunks with
  | none =>
    simp only [storeDocument, hch]
    exact hu
  | some chs =>
    have hdb2 : uniqueByUrl (dbAfterInsert input db) := by
      intro v hv
      show (((dedupByUrl input db).documents ++ [insertedDoc input db]).filter
          (fun d => d.url == some v)).length ≤ 1
      rw [List.filter_append, List.length_append]
      cases hn : normUrl input.url with
      | none =>
        have hded : dedupByUrl input db = db := by simp [dedupByUrl, hn]
        have hrow : ([insertedDoc input db].filter (fun d => d.url == some v)).length = 0 := by
          simp [insertedDoc, hn]
        rw [hded, hrow]
        simpa using hu v hv
      | some u =>
        by_cases hvu : v = u
        · subst hvu
          rw [dedup_filter_url_eq_nil input db v hn]
          have : ([insertedDoc input db].filter (fun d => d.url == some v)).length ≤ 1 :=
            Nat.le_trans (List.length_filter_le _ _) (by simp)
          simpa using this
        · have hrow : ([insertedDoc input db].filter (fun d => d.url == some v)).length = 0 := by
            simp only [insertedDoc]
            simp [hn]
            exact fun h => hvu h.symm
          rw [hrow, Nat.add_zero]
          have hle : ((dedupByUrl input db).documents.filter
              (fun d => d.url == some v)).length
              ≤ (db.documents.filter (fun d => d.url == some v)).length := by
            simp only [dedupByUrl, hn]
            split
            · simp only [deleteDocsByUrl]
              exact length_filter_filter_le _ _ _
            · exact Nat.le_refl _
          exact Nat.le_trans hle (hu v hv)
    simp only [storeDocument, hch]
    by_cases hd0 : (dedupByUrl input db).nextDocId = 0
    · rw [if_pos hd0]
      exact hdb2
    · rw [if_neg hd0]
      obtain ⟨rows, h1, h2, h3, h4, h5, h6⟩ := chunkInsertLoop_spec embedC persistC
        (dedupByUrl input db).nextDocId chs 0 (dbAfterInsert input db) 0
      by_cases hcr : (chunkInsertLoop embedC persistC (dedupByUrl input db).nextDocId chs 0
          (dbAfterInsert input db) 0).2 = 0
      · rw [if_pos hcr]
        intro v hv
        show ((((chunkInsertLoop embedC persistC (dedupByUrl input db).nextDocId chs 0
            (dbAfterInsert input db) 0).1.documents.filter
            (fun d => !(d.id == (dedupByUrl input db).nextDocId))).filter
            (fun d => d.url == some v)).length) ≤ 1
        rw [h1]
        exact Nat.le_trans (length_filter_filter_le _ _ _) (hdb2 v hv)
      · rw [if_neg hcr]
        intro v hv
        show (((chunkInsertLoop embedC persistC (dedupByUrl input db).nextDocId chs 0
            (dbAfterInsert input db) 0).1.documents.filter
            (fun d => d.url == some v)).length) ≤ 1
        rw [h1]
        exact hdb2 v hv

/-- Claim C1: across every sequence of `storeDocument` calls starting from
the empty database, at most one live document row exists per non-empty
url; and for any successful call supplying a url, the final state holds
exactly one document with that url — the newly inserted one — whose
chunks all come from this call's chunk list, while every document that
previously held the url is gone together with its chunks (the dedup
delete cascades before the new insert). -/
theorem claim_C1_url_dedup_replace :
    (∀ calls : List StoreCall, uniqueByUrl (runCalls calls emptyDB)) ∧
    (∀ (embedC : Str → Except Str Vec) (persistC : Nat → Bool) (input : StoreInput)
       (db : DB) (chs : List Str) (u : Str) (r : StoredDocument) (db' : DB),
       wfDB db → input.chunks = some chs → normUrl input.url = some u →
       storeDocument embedC persistC input db = (.ok r, db') →
       ((db'.documents.filter (fun d => d.url == some u)).map (fun d => d.id) = [r.id]) ∧
       (∀ c ∈ db'.chunks, c.document_id = r.id → c.content ∈ chs) ∧
       (∀ c ∈ db'.chunks, ∀ d ∈ db.documents, d.url = some u → c.document_id ≠ d.id)) := by
  constructor
  · have hrun : ∀ (calls : List StoreCall) (db : DB),
        uniqueByUrl db → uniqueByUrl (runCalls calls db) := by
      intro calls
      induction calls with
      | nil => intro db h; exact h
      | cons c cs ih =>
        intro db h
        exact ih _ (storeDocument_preserves_uniqueByUrl c.embedC c.persistC c.input db h)
    intro calls
    refine hrun calls emptyDB ?_
    intro v _
    simp [emptyDB]
  · intro embedC persistC input db chs u r db' hwf hch hn hstore
    have hdid : (dedupByUrl input db).nextDocId = db.nextDocId := dedupByUrl_nextDocId input db
    have hd0 : ¬((dedupByUrl input db).nextDocId = 0) := by
      have h1 := hwf.1
      omega
    simp only [storeDocument, hch] at hstore
    rw [if_neg hd0] at hstore
    obtain ⟨rows, h1, h2, h3, h4, h5, h6⟩ := chunkInsertLoop_spec embedC persistC
      (dedupByUrl input db).nextDocId chs 0 (dbAfterInsert input db) 0
    by_cases hcr : (chunkInsertLoop embedC persistC (dedupByUrl input db).nextDocId chs 0
        (dbAfterInsert input db) 0).2 = 0
    · rw [if_pos hcr] at hstore
      exact absurd (congrArg Prod.fst hstore) (by simp)
    · rw [if_neg hcr] at hstore
      have hr : (⟨(dedupByUrl input db).nextDocId, normUrl input.url, orNull input.title,
          (chunkInsertLoop embedC persistC (dedupByUrl input db).nextDocId
            chs 0 (dbAfterInsert input db) 0).2⟩ : StoredDocument) = r := by
        have := congrArg Prod.fst hstore
        simpa using this
      have hdb : (chunkInsertLoop embedC persistC (dedupByUrl input db).nextDocId chs 0
          (dbAfterInsert input db) 0).1 = db' := congrArg Prod.snd hstore
      subst hdb
      have hrid : r.id = (dedupByUrl input db).nextDocId := by
        rw [← hr]
      refine ⟨?_, ?_, ?_⟩
      · rw [h1]
        show (((dedupByUrl input db).documents ++ [insertedDoc input db]).filter
            (fun d => d.url == some u)).map (fun d => d.id) = [r.id]
        rw [List.filter_append, dedup_filter_url_eq_nil input db u hn, List.nil_append]
        have hone : [insertedDoc input db].filter (fun d => d.url == some u)
            = [insertedDoc input db] := by
          simp [insertedDoc, hn]
        rw [hone]
        simp [insertedDoc, hrid]
      · intro c hc hcid
        rw [h3] at hc
        rcases List.mem_append.mp hc with hold | hnew
        · exfalso
          have hmem := mem_chunks_of_dedup input db c hold
          have hlt := hwf.2.2 c hmem
          rw [hcid, hrid, hdid] at hlt
          omega
        · have hpr : (c.chunk_index, c.content) ∈ keepSpec embedC persistC chs 0 := by
            rw [← h4]
            exact List.mem_map_of_mem _ hnew
          rw [keepSpec_eq_filter_enumFrom] at hpr
          have := snd_mem_of_mem_enumFrom chs 0 _ (List.mem_of_mem_filter hpr)
          simpa using this
      · intro c hc d hd hdu
        rw [h3] at hc
        rcases List.mem_append.mp hc with hold | hnew
        · exact dedup_kills_old_url_docs input db u hn c hold d hd hdu
        · have hcid := h5 c hnew
          have hlt := (hwf.2.1 d hd).2
          rw [hcid, hdid]
          omega

/-- Witness for claim C1: two successive ingests of the url `http://x`
leave a unique-by-url store; the second ingest's state holds exactly the
new document id `2` for that url, its chunks all come from the second
chunk list, and no chunk references the first ingest's document. -/
theorem claim_C1_witness :
    uniqueByUrl (runCalls [⟨okEmbedW, allPersistW, inpW1⟩, ⟨okEmbedW, allPersistW, inpW2⟩]
      emptyDB) ∧
    ((dbW2.documents.filter (fun d => d.url == some "http://x".toList)).map (fun d => d.id)
      = [rW2.id]) ∧
    (∀ c ∈ dbW2.chunks, c.document_id = rW2.id → c.content ∈ ["gamma.".toList]) ∧
    (∀ c ∈ dbW2.chunks, ∀ d ∈ dbW1.documents, d.url = some "http://x".toList →
      c.document_id ≠ d.id) :=
  ⟨claim_C1_url_dedup_replace.1 _,
   claim_C1_url_dedup_replace.2 okEmbedW allPersistW inpW2 dbW1 ["gamma.".toList]
     "http://x".toList rW2 dbW2 (by decide) rfl rfl rfl⟩

/-- Witness for claim C2: re-ingesting `http://x` with an embedding client
that fails on every call errors out and leaves exactly the
dedup-deleted state — no document and no chunk from the failed call. -/
theorem claim_C2_witness :
    (.error (storeFailMsg "Failed to create any chunks for document".toList)
        : Except Str StoredDocument)
      = .error (storeFailMsg "Failed to create any chunks for document".toList) ∧
    dbW2fail.documents = (dedupByUrl inpW2 dbW1).documents ∧
    dbW2fail.chunks = (dedupByUrl inpW2 dbW1).chunks :=
  claim_C2_zero_chunks_no_orphan failEmbedW allPersistW inpW2 dbW1 ["gamma.".toList]
    (.error (storeFailMsg "Failed to create any chunks for document".toList)) dbW2fail
    (by decide) rfl
    (by
      intro pr hpr
      have hp : pr = (0, "gamma.".toList) := by simpa using hpr
      subst hp
      exact Or.inr (Or.inl ⟨"rate limited".toList, rfl⟩))
    rfl

/-- Witness for claim C6: the first ingest persists exactly the two
non-empty chunks with indices `0` and `2` (the whitespace chunk at index
`1` is skipped), in order and strictly increasing. -/
theorem claim_C6_witness :
    ((dbW1.chunks.filter (fun c => c.document_id == rW1.id)).map
        (fun c => (c.chunk_index, c.content))
      = (["alpha.".toList, " ".toList, "beta.".toList].enum.filter
          (keepPred okEmbedW allPersistW))) ∧
    rW1.chunksCreated = ((["alpha.".toList, " ".toList, "beta.".toList].enum.filter
        (keepPred okEmbedW allPersistW))).length ∧
    (dbW1.chunks.filter (fun c => c.document_id == rW1.id)).Pairwise
      (fun a b => a.chunk_index < b.chunk_index) :=
  claim_C6_partial_failure_order_preserving okEmbedW allPersistW inpW1 emptyDB
    ["alpha.".toList, " ".toList, "beta.".toList] rW1 dbW1 (by decide) rfl rfl
